import Mathlib

/-!
Shallow embedding of `src/iminuit/cost.py` (statistical cost functions for
minimizer-based fits).  Arrays are modelled as lists over `ℚ` (exact
arithmetic standing in for IEEE doubles); the transcendental kernels are
parametrised by abstract functions `rlog`/`rsqrt` standing for `np.log` and
`np.sqrt`, so that every definition stays computable while theorems can
quantify over any interpretation of the logarithm/square root.

The constant `1e-323` that the source adds inside `np.log(x + 1e-323)` and in
the Bohm-Zech division is a subnormal double: IEEE addition absorbs it
completely whenever the other operand is a normal number, and returns it
unchanged when the other operand is zero.  `addTiny` models exactly that
behaviour.
-/

namespace Iminuit

/-- The guard constant `1e-323` from `cost.py`. -/
def tiny : ℚ := 1 / 10 ^ 323

/-- Models the float64 addition `x + 1e-323` used as an epsilon guard in
`_sum_log_x`, `_log_poisson_part` and `_prepare_data`: the subnormal guard is
absorbed by any nonzero operand and survives only when `x` is zero. -/
def addTiny (x : ℚ) : ℚ := if x = 0 then tiny else x

/-- `_sum_log_x(x) = np.sum(np.log(x + 1e-323))`, with `rlog` standing for
`np.log`. -/
def sum_log_x (rlog : ℚ → ℚ) (xs : List ℚ) : ℚ :=
  (xs.map fun x => rlog (addTiny x)).sum

/-- `_log_poisson_part(n, mu) = n * (np.log(n + 1e-323) - np.log(mu + 1e-323))`
(pointwise). -/
def log_poisson_part (rlog : ℚ → ℚ) (n mu : ℚ) : ℚ :=
  n * (rlog (addTiny n) - rlog (addTiny mu))

/-- `_sum_log_poisson_part(n, mu) = np.sum(_log_poisson_part(n, mu))`. -/
def sum_log_poisson_part (rlog : ℚ → ℚ) (n mu : List ℚ) : ℚ :=
  (List.zipWith (log_poisson_part rlog) n mu).sum

/-- `_sum_log_poisson(n, mu) = np.sum(mu - n + _log_poisson_part(n, mu))`. -/
def sum_log_poisson (rlog : ℚ → ℚ) (n mu : List ℚ) : ℚ :=
  (List.zipWith (fun a b => b - a + log_poisson_part rlog a b) n mu).sum

/-- `_z_squared(y, ye, ym)`: `z = (y - ym) / ye; z * z` (pointwise). -/
def z_squared (y ye ym : ℚ) : ℚ :=
  let z := (y - ym) / ye
  z * z

/-- Three-list zip, used for the pointwise residual kernels. -/
def zip3With (f : α → β → γ → δ) : List α → List β → List γ → List δ
  | a :: as, b :: bs, c :: cs => f a b c :: zip3With f as bs cs
  | _, _, _ => []

/-- `_sum_z_squared(y, ye, ym) = np.sum(_z_squared(y, ye, ym))`. -/
def sum_z_squared (y ye ym : List ℚ) : ℚ :=
  (zip3With z_squared y ye ym).sum

/-- `_sum_z_squared_soft_l1(y, ye, ym) = np.sum(2 * (np.sqrt(1.0 + z) - 1.0))`
where `z = _z_squared(y, ye, ym)` and `rsqrt` stands for `np.sqrt`. -/
def sum_z_squared_soft_l1 (rsqrt : ℚ → ℚ) (y ye ym : List ℚ) : ℚ :=
  ((zip3With z_squared y ye ym).map fun z => 2 * (rsqrt (1 + z) - 1)).sum

/-- `np.diff` on a 1-D array. -/
def diffL : List ℚ → List ℚ
  | x :: y :: rest => (y - x) :: diffL (y :: rest)
  | _ => []

/-- A `MaskedCost` mask: `None`, a boolean array, or an index array. -/
inductive Mask where
  | none
  | bool (bs : List Bool)
  | idx (ixs : List Nat)
deriving DecidableEq

/-- Numpy fancy indexing `values[mask]` along the leading axis: `None` keeps
everything, a boolean mask selects the `True` positions, an index array
gathers the listed positions. -/
def applyMask (m : Mask) (xs : List α) : List α :=
  match m with
  | .none => xs
  | .bool bs => (List.zip bs xs).filterMap fun p => if p.1 then some p.2 else Option.none
  | .idx ixs => ixs.filterMap fun i => xs[i]?

/-- The mutable state of a `MaskedCost`: backing data `_data`, `_mask`, and
the cached derived view `_masked`. -/
structure MaskedState (α : Type) where
  data : List α
  mask : Mask
  masked : List α

/-- `MaskedCost._update_masked`:
`self._masked = self._data if self._mask is None else self._data[self._mask]`
(note `applyMask .none` is the identity). -/
def updateMasked (d : List α) (m : Mask) : List α := applyMask m d

/-- `MaskedCost.__init__(args, data, verbose)`: stores data and sets
`mask = None`, which triggers `_update_masked`. -/
def MaskedState.init (d : List α) : MaskedState α :=
  ⟨d, .none, updateMasked d .none⟩

/-- The `mask` setter: stores the mask and recomputes `_masked`. -/
def MaskedState.setMask (st : MaskedState α) (m : Mask) : MaskedState α :=
  ⟨st.data, m, updateMasked st.data m⟩

/-- The `data` setter: `self._data[:] = value` (in-place, shape-preserving)
followed by `_update_masked`. -/
def MaskedState.setData (st : MaskedState α) (d : List α) : MaskedState α :=
  ⟨d, st.mask, updateMasked d st.mask⟩

/-- `MaskedCost.ndata = len(self._masked)`. -/
def MaskedState.ndata (st : MaskedState α) : Nat := st.masked.length

/-- The cached view is consistent with data and mask. -/
def MaskedState.wf (st : MaskedState α) : Prop :=
  st.masked = updateMasked st.data st.mask

/-! ## Binned costs (`BinnedCost`, `BinnedNLL`, `ExtendedBinnedNLL`) -/

/-- A rectangular 2-D numpy array of rationals: a list of rows, all of the
same length `width`. -/
structure Array2 where
  rows : List (List ℚ)
  width : Nat
  rect : ∀ r ∈ rows, r.length = width

/-- Bin contents as passed to `BinnedCost._prepare_data`: either a plain 1-D
count array (the same number of dimensions as the 1-D edge array `xe`) or a
2-D weighted array whose rows are meant to be
(sum of weights, sum of squared weights) pairs. -/
inductive RawContents where
  | counts (n : List ℚ)
  | weighted (a : Array2)

/-- One stored row of a weighted binned cost after `_prepare_data`:
`(v, var, v * s, s)` with `s = v / (var + 1e-323)` the Bohm-Zech scale. -/
def BZRow : Type := ℚ × ℚ × ℚ × ℚ

/-- The per-bin part of `np.column_stack((v, var, v * s, s))` in
`_prepare_data`, with `v = n[..., 0]`, `var = n[..., 1]` and the Bohm-Zech
scale `s = v / (var + 1e-323)`. -/
def bzRow (r : List ℚ) : BZRow :=
  let v := r.headD 0
  let var := (r.drop 1).headD 0
  let s := v / addTiny var
  (v, var, v * s, s)

/-- The `_data` array of a `BinnedCost`: 1-D counts, or the four-column
weighted layout produced by `_prepare_data`. -/
inductive BData where
  | u (n : List ℚ)
  | w (rows : List BZRow)

/-- Leading-axis length of a `BinnedCost` data array. -/
def BData.length : BData → Nat
  | .u n => n.length
  | .w rows => rows.length

/-- Numpy indexing `data[mask]` on the leading axis of a `BinnedCost` data
array. -/
def maskB (m : Mask) : BData → BData
  | .u n => .u (applyMask m n)
  | .w rows => .w (applyMask m rows)

/-- `BinnedCost._prepare_data(value)`: validates the shape of the bin
contents against the edges `xe` and, for weighted input, appends the
Bohm-Zech effective count `v * s` and scale `s = v / (var + 1e-323)` as
third and fourth columns (`np.column_stack((v, var, v * s, s))`). -/
def prepare_data (xe : List ℚ) : RawContents → Except String BData
  | .counts n =>
      if n.length + 1 ≠ xe.length then
        .error "n and xe have incompatible shapes"
      else
        .ok (.u n)
  | .weighted a =>
      if a.rows.length + 1 ≠ xe.length then
        .error "n and xe have incompatible shapes"
      else if a.width ≠ 2 then
        .error "n must have shape (..., 2)"
      else
        .ok (.w (a.rows.map bzRow))

/-- The state of a `BinnedCost`: bin edges `_xe` plus the inherited
`MaskedCost` state (`_data`, `_mask`, cached `_masked`). -/
structure BinnedState where
  xe : List ℚ
  data : BData
  mask : Mask
  masked : BData

/-- `BinnedCost.__init__`: store the edges and the prepared data with
`mask = None`, which makes the cached view equal to the data. -/
def BinnedState.init (xe : List ℚ) (d : BData) : BinnedState :=
  ⟨xe, d, .none, maskB .none d⟩

/-- The `mask` setter on a binned cost: recomputes the cached view. -/
def BinnedState.setMask (st : BinnedState) (m : Mask) : BinnedState :=
  ⟨st.xe, st.data, m, maskB m st.data⟩

/-- The cached `_masked` view of a binned cost is consistent. -/
def BinnedState.wf (st : BinnedState) : Prop :=
  st.masked = maskB st.mask st.data

/-- `BinnedCost.data` property getter: for weighted data return only the
first two stored columns (`self._data[:, :2]`), else the counts. -/
def BData.dataGetter : BData → List (List ℚ)
  | .u n => n.map fun x => [x]
  | .w rows => rows.map fun r => [r.1, r.2.1]

/-- `BinnedNLL._call(args)` given the model output `cdf = self._model(xe, *args)`:
`prob = np.diff(cdf)`; if the mask is set, `prob = prob[ma]; prob /= np.sum(prob)`;
then `mu = np.sum(n) * prob` (for weighted data `mu = np.sum(n[:, 0]) * prob`,
`mu *= n[:, 3]`, `n = n[:, 2]`); the result is
`2.0 * _sum_log_poisson_part(n, mu)`. -/
def binnedNLL_call (rlog : ℚ → ℚ) (st : BinnedState) (cdf : List ℚ) : ℚ :=
  let prob0 := diffL cdf
  let prob :=
    match st.mask with
    | .none => prob0
    | m =>
        let p := applyMask m prob0
        p.map fun x => x / p.sum
  match st.masked with
  | .u n => 2 * sum_log_poisson_part rlog n (prob.map fun p => n.sum * p)
  | .w rows =>
      let mu0 := prob.map fun p => (rows.map fun r => r.1).sum * p
      let mu := List.zipWith (fun m r => m * r.2.2.2) mu0 rows
      2 * sum_log_poisson_part rlog (rows.map fun r => r.2.2.1) mu

/-- `ExtendedBinnedNLL._call(args)` given `scdf = self._model(xe, *args)`:
`mu = np.diff(scdf)`; if the mask is set, `mu = mu[ma]` (no renormalisation);
for weighted data `mu *= n[:, 3]`, `n = n[:, 2]`; the result is
`2.0 * _sum_log_poisson(n, mu)`. -/
def extendedBinnedNLL_call (rlog : ℚ → ℚ) (st : BinnedState) (scdf : List ℚ) : ℚ :=
  let mu0 := diffL scdf
  let mu := applyMask st.mask mu0
  match st.masked with
  | .u n => 2 * sum_log_poisson rlog n mu
  | .w rows =>
      let mu' := List.zipWith (fun m r => m * r.2.2.2) mu rows
      2 * sum_log_poisson rlog (rows.map fun r => r.2.2.1) mu'

/-! ## Unbinned costs (`UnbinnedNLL`, `ExtendedUnbinnedNLL`) -/

/-- The state of an `UnbinnedCost`: the inherited `MaskedCost` state over 1-D
samples plus the `log` flag telling whether the model returns `log(pdf)`. -/
structure UnbinnedState where
  ms : MaskedState ℚ
  logf : Bool

/-- `UnbinnedNLL._call(args)` with `model` the evaluation
`x = self._model(self._masked, *args)` of the pdf (or log-pdf) on the active
sample: `-2.0 * np.sum(x)` in log-mode, else `-2.0 * _sum_log_x(x)`. -/
def unbinnedNLL_call (rlog : ℚ → ℚ) (st : UnbinnedState)
    (model : List ℚ → List ℚ) : ℚ :=
  let x := model st.ms.masked
  if st.logf then -2 * x.sum else -2 * sum_log_x rlog x

/-- `ExtendedUnbinnedNLL._call(args)` with the model returning the pair
`(ns, x)`: `2 * (ns - np.sum(x))` in log-mode, else `2 * (ns - _sum_log_x(x))`. -/
def extendedUnbinnedNLL_call (rlog : ℚ → ℚ) (st : UnbinnedState)
    (model : List ℚ → ℚ × List ℚ) : ℚ :=
  let nsx := model st.ms.masked
  if st.logf then 2 * (nsx.1 - nsx.2.sum) else 2 * (nsx.1 - sum_log_x rlog nsx.2)

/-! ## LeastSquares -/

/-- The resolved `_cost` kernel of a `LeastSquares` object. -/
inductive LossKind where
  | linear
  | softL1
  | callable (f : ℚ → ℚ)

/-- The argument accepted by the `loss` setter: a string or a callable. -/
inductive LossArg where
  | str (s : String)
  | func (f : ℚ → ℚ)

/-- The `LeastSquares.loss` setter: a callable is composed with `_z_squared`,
`"linear"` selects `_sum_z_squared`, `"soft_l1"` selects
`_sum_z_squared_soft_l1`, and any other string raises
`ValueError("unknown loss type: " + loss)`. -/
def setLoss : LossArg → Except String LossKind
  | .func f => .ok (.callable f)
  | .str s =>
      if s = "linear" then .ok .linear
      else if s = "soft_l1" then .ok .softL1
      else .error ("unknown loss type: " ++ s)

/-- The state of a `LeastSquares` cost with 1-D `x`: the packed data matrix
`np.column_stack((x, y, yerror))` as rows `(x, y, yerror)`, the inherited
mask state, and the resolved loss kernel. -/
structure LsqState where
  ms : MaskedState (ℚ × ℚ × ℚ)
  loss : LossKind

/-- `LeastSquares._call(args)` with `model` the evaluation
`ym = self._model(x, *args)` on the active `x` column: unpack the active
`y` and `yerror` columns and apply the selected `_cost` kernel. -/
def leastSquares_call (rsqrt : ℚ → ℚ) (st : LsqState)
    (model : List ℚ → List ℚ) : ℚ :=
  let x := st.ms.masked.map fun r => r.1
  let y := st.ms.masked.map fun r => r.2.1
  let yerror := st.ms.masked.map fun r => r.2.2
  let ym := model x
  match st.loss with
  | .linear => sum_z_squared y yerror ym
  | .softL1 => sum_z_squared_soft_l1 rsqrt y yerror ym
  | .callable f => ((zip3With z_squared y yerror ym).map f).sum

/-! ## The cost-term algebra (`Cost`, `Constant`, `CostSum`) -/

/-- The tagged union of all concrete cost-term kinds of `cost.py`. -/
inductive Cost where
  | constant (value : ℚ)
  | unbinnedNLL (st : UnbinnedState)
  | extendedUnbinnedNLL (st : UnbinnedState)
  | binnedNLL (st : BinnedState)
  | extendedBinnedNLL (st : BinnedState)
  | leastSquares (st : LsqState)
  | normalConstraint (value : List ℚ) (cov : List ℚ)
  | costSum (items : List Cost)

/-- An argument to `CostSum.__init__`: a cost object or a plain number. -/
inductive SumItem where
  | cost (c : Cost)
  | num (v : ℚ)

/-- The constituent-list construction of `CostSum.__init__`: a `CostSum`
argument is flattened into its items, a plain number is appended as a
`Constant` unless it equals zero (in which case it is dropped), and any
other cost object is appended as is. -/
def costSumInit : List SumItem → List Cost
  | [] => []
  | .cost (.costSum cs) :: rest => cs ++ costSumInit rest
  | .cost c :: rest => c :: costSumInit rest
  | .num v :: rest => (if v ≠ 0 then [.constant v] else []) ++ costSumInit rest

/-- `cost_a + cost_b` (`Cost.__add__`): `CostSum(self, rhs)`. -/
def Cost.add (a b : Cost) : Cost := .costSum (costSumInit [.cost a, .cost b])

/-- `cost + number` (`Cost.__add__` with a plain number). -/
def Cost.addNum (a : Cost) (v : ℚ) : Cost := .costSum (costSumInit [.cost a, .num v])

/-- `number + cost` (`Cost.__radd__`). -/
def Cost.numAdd (v : ℚ) (a : Cost) : Cost := .costSum (costSumInit [.num v, .cost a])

/-- Whether a cost term is one of the unbinned kinds (whose `ndata` is
infinite). -/
def Cost.isUnbinned : Cost → Bool
  | .unbinnedNLL _ => true
  | .extendedUnbinnedNLL _ => true
  | _ => false

/-- `ndata` for every cost kind: `0` for `Constant`, infinity for the
unbinned likelihoods (`UnbinnedCost.ndata`), the length of the cached
`_masked` view for binned and least-squares terms (`MaskedCost.ndata`),
`len(self._value)` for `NormalConstraint`, and
`sum(c.ndata for c in self._items)` for `CostSum`. -/
def Cost.ndata : Cost → ℕ∞
  | .constant _ => 0
  | .unbinnedNLL _ => ⊤
  | .extendedUnbinnedNLL _ => ⊤
  | .binnedNLL st => (st.masked.length : ℕ∞)
  | .extendedBinnedNLL st => (st.masked.length : ℕ∞)
  | .leastSquares st => (st.ms.masked.length : ℕ∞)
  | .normalConstraint v _ => (v.length : ℕ∞)
  | .costSum items => (items.attach.map fun c => c.1.ndata).sum
termination_by c => sizeOf c
decreasing_by
  simp_wf
  have h := List.sizeOf_lt_of_mem c.2
  omega

/-! ## Specification-side definitions

These three definitions follow the wording of the specification (section
4.4) rather than the source, and exist only to be compared with the
source-derived `_call` embeddings above. -/

/-- Specification wording for `BinnedNLL`: expected bin probabilities are
`diff(F)`; if a mask removes bins, the remaining probabilities are
renormalised to sum to one. -/
def binnedNLL_spec_prob (m : Mask) (cdf : List ℚ) : List ℚ :=
  if m = .none then diffL cdf
  else (applyMask m (diffL cdf)).map fun x => x / (applyMask m (diffL cdf)).sum

/-- Specification wording for `BinnedNLL`: expected counts are
`mu = total_observed * prob` and the cost is `2 * sum(n*(log(n)-log(mu)))`
over the active bins, with the `n*log(n)` term retained. -/
def binnedNLL_spec (rlog : ℚ → ℚ) (m : Mask) (n cdf : List ℚ) : ℚ :=
  let prob := binnedNLL_spec_prob m cdf
  let nAct := applyMask m n
  let mu := prob.map fun p => nAct.sum * p
  2 * (List.zipWith (fun a b => a * (rlog a - rlog b)) nAct mu).sum

/-- Specification wording for `ExtendedBinnedNLL`: expected counts are
`mu = diff(scaled_cdf)` with no renormalisation (masked bins are selected
from `mu` but the rest is not rescaled), and the cost is
`2 * sum(mu - n + n*(log(n)-log(mu)))` over the active bins. -/
def extendedBinnedNLL_spec (rlog : ℚ → ℚ) (m : Mask) (n scdf : List ℚ) : ℚ :=
  let mu := applyMask m (diffL scdf)
  let nAct := applyMask m n
  2 * (List.zipWith (fun a b => b - a + a * (rlog a - rlog b)) nAct mu).sum

/-! ## Helper lemmas -/

theorem applyMask_none_eq (xs : List α) : applyMask .none xs = xs := rfl

theorem length_applyMask_bool (bs : List Bool) (xs : List α)
    (h : bs.length = xs.length) :
    (applyMask (.bool bs) xs).length = bs.count true := by
  induction bs generalizing xs with
  | nil => simp [applyMask]
  | cons b bt ih =>
    cases xs with
    | nil => simp at h
    | cons x xt =>
      have h' : bt.length = xt.length := by simpa using h
      have ihx := ih xt h'
      simp only [applyMask] at ihx ⊢
      cases b <;> simp [List.filterMap_cons, List.count_cons, ihx]

theorem length_applyMask_idx (ixs : List Nat) (xs : List α)
    (h : ∀ i ∈ ixs, i < xs.length) :
    (applyMask (.idx ixs) xs).length = ixs.length := by
  induction ixs with
  | nil => rfl
  | cons i it ih =>
    have hi : i < xs.length := h i (by simp)
    have ht : ∀ j ∈ it, j < xs.length := fun j hj => h j (by simp [hj])
    simp [applyMask, List.filterMap_cons, List.getElem?_eq_getElem hi]
    simpa [applyMask] using ih ht

theorem sum_map_div (l : List ℚ) (s : ℚ) :
    (l.map fun x => x / s).sum = l.sum / s := by
  induction l with
  | nil => simp
  | cons a t ih => simp [ih, add_div]

theorem zipWith_congr_mem (f g : α → β → γ) (l₁ : List α) (l₂ : List β)
    (h : ∀ a b, a ∈ l₁ → b ∈ l₂ → f a b = g a b) :
    List.zipWith f l₁ l₂ = List.zipWith g l₁ l₂ := by
  induction l₁ generalizing l₂ with
  | nil => simp
  | cons a t ih =>
    cases l₂ with
    | nil => simp
    | cons b u =>
      simp only [List.zipWith_cons_cons]
      refine congrArg₂ _ (h a b (by simp) (by simp)) ?_
      exact ih u fun a' b' ha hb => h a' b' (by simp [ha]) (by simp [hb])

theorem tiny_pos : 0 < tiny := by
  unfold tiny
  positivity

theorem addTiny_pos (x : ℚ) (h : 0 ≤ x) : 0 < addTiny x := by
  unfold addTiny
  split
  · exact tiny_pos
  · exact lt_of_le_of_ne h (Ne.symm (by assumption))

theorem addTiny_of_ne (x : ℚ) (h : x ≠ 0) : addTiny x = x := if_neg h

theorem sum_eq_top_of_mem (l : List ℕ∞) (h : ⊤ ∈ l) : l.sum = ⊤ := by
  induction l with
  | nil => simp at h
  | cons a t ih =>
    rcases List.mem_cons.mp h with h1 | h2
    · simp [← h1]
    · simp [ih h2]

theorem headD_drop_eq_of_length_two (r : List ℚ) (h : r.length = 2) :
    [r.headD 0, (r.drop 1).headD 0] = r := by
  cases r with
  | nil => simp at h
  | cons a t =>
    cases t with
    | nil => simp at h
    | cons b u =>
      cases u with
      | nil => rfl
      | cons c v => simp [List.length] at h

theorem ndata_costSum_eq (items : List Cost) :
    Cost.ndata (.costSum items) = (items.map Cost.ndata).sum := by
  rw [Cost.ndata]
  congr 1
  conv_rhs => rw [← List.attach_map_val items]

/-! ## Claim theorems -/

/-- Claim C3 counterexample: adding a `Constant(0)` *object* does not leave
the constituent list length unchanged.  `CostSum.__init__` only drops plain
numbers equal to zero; a `Constant(0)` instance takes the generic-cost branch
and is appended, so `CostSum(c, Constant(0))` has two constituents while
`CostSum(c)` has one. -/
theorem costSum_constant_zero_counterexample :
    (costSumInit [.cost (.constant 1), .cost (.constant 0)]).length ≠
      (costSumInit [.cost (.constant 1)]).length := by
  decide

/-- Claim C3 (amended): for every cost term `c` and value `v`, adding a
`Constant(v)` object appends it to the constituent list (length grows by
one) regardless of whether `v` is zero; adding `c` to a plain number `v`
yields a CostSum containing `Constant(v)` unless `v = 0`, in which case the
number is dropped — in both addition orders. -/
theorem costSum_constant_and_number (c : Cost) (v : ℚ) :
    (costSumInit [.cost c, .cost (.constant v)]).length
        = (costSumInit [.cost c]).length + 1 ∧
    costSumInit [.cost c, .num v]
        = costSumInit [.cost c] ++ (if v = 0 then [] else [.constant v]) ∧
    costSumInit [.num v, .cost c]
        = (if v = 0 then [] else [.constant v]) ++ costSumInit [.cost c] := by
  refine ⟨?_, ?_, ?_⟩
  · cases c <;> simp [costSumInit]
  · cases c <;> by_cases hv : v = 0 <;> simp [costSumInit, hv]
  · cases c <;> by_cases hv : v = 0 <;> simp [costSumInit, hv]

/-- Claim C4: for every CostSum, `ndata` equals the sum of the constituents'
`ndata` values, and the sum is infinite whenever at least one constituent is
an unbinned cost term. -/
theorem costSum_ndata (items : List Cost) :
    Cost.ndata (.costSum items) = (items.map Cost.ndata).sum ∧
    (∀ c ∈ items, c.isUnbinned = true → Cost.ndata (.costSum items) = ⊤) := by
  refine ⟨ndata_costSum_eq items, fun c hc hu => ?_⟩
  rw [ndata_costSum_eq items]
  refine sum_eq_top_of_mem _ ?_
  have hct : Cost.ndata c = ⊤ := by
    cases c <;> simp [Cost.isUnbinned] at hu <;> simp [Cost.ndata]
  exact hct ▸ List.mem_map_of_mem Cost.ndata hc

/-- Claim C4 witness: a CostSum containing an unbinned term has infinite
`ndata`. -/
theorem costSum_ndata_witness :
    Cost.ndata (.costSum [.constant 1, .unbinnedNLL ⟨MaskedState.init [], false⟩]) = ⊤ :=
  (costSum_ndata _).2 (.unbinnedNLL ⟨MaskedState.init [], false⟩) (by simp) rfl

/-- Claim C5: for every masked cost, `ndata` after setting a boolean mask
equals the count of `True` entries; after setting an index-array mask it
equals the length of the index array; after resetting the mask to `None` it
returns to the unmasked count; and initialisation and every data or mask
mutation recompute the derived active view, so the view is never stale. -/
theorem maskedCost_ndata_and_view :
    (∀ (α : Type) (st : MaskedState α) (bs : List Bool),
        bs.length = st.data.length →
        (st.setMask (.bool bs)).ndata = bs.count true) ∧
    (∀ (α : Type) (st : MaskedState α) (ixs : List Nat),
        (∀ i ∈ ixs, i < st.data.length) →
        (st.setMask (.idx ixs)).ndata = ixs.length) ∧
    (∀ (α : Type) (st : MaskedState α), (st.setMask .none).ndata = st.data.length) ∧
    (∀ (α : Type) (d : List α), (MaskedState.init d).wf) ∧
    (∀ (α : Type) (st : MaskedState α) (m : Mask), (st.setMask m).wf) ∧
    (∀ (α : Type) (st : MaskedState α) (d : List α), (st.setData d).wf) := by
  refine ⟨?_, ?_, ?_, ?_, ?_, ?_⟩
  · intro α st bs h
    exact length_applyMask_bool bs st.data h
  · intro α st ixs h
    exact length_applyMask_idx ixs st.data h
  · intro α st
    rfl
  · intro α d
    rfl
  · intro α st m
    rfl
  · intro α st d
    rfl

/-- Claim C5 witness: a concrete masked state over three samples with a
boolean mask with two `True` entries, an index mask of length two, and a
reset to `None`. -/
theorem maskedCost_ndata_witness :
    ((MaskedState.init ([10, 20, 30] : List ℚ)).setMask
        (.bool [true, false, true])).ndata = 2 ∧
    ((MaskedState.init ([10, 20, 30] : List ℚ)).setMask (.idx [2, 0])).ndata = 2 ∧
    ((MaskedState.init ([10, 20, 30] : List ℚ)).setMask .none).ndata = 3 := by
  refine ⟨?_, ?_, ?_⟩
  · have h := maskedCost_ndata_and_view.1 ℚ (MaskedState.init [10, 20, 30])
      [true, false, true] (by decide)
    simpa using h
  · have h := maskedCost_ndata_and_view.2.1 ℚ (MaskedState.init [10, 20, 30])
      [2, 0] (by decide)
    simpa using h
  · have h := maskedCost_ndata_and_view.2.2.1 ℚ (MaskedState.init [10, 20, 30])
    simpa using h

/-- Claim C2: with `log=False`, `UnbinnedNLL` applied to a pointwise density
`f` returns `-2 * sum(log(f(x_i) + tiny))` over the active data points, and
the epsilon guard makes every argument of the logarithm positive even where
the density is exactly zero; with `log=True` the cost is `-2 * sum(x)` of the
model output with no logarithm or exponential applied to it. -/
theorem unbinnedNLL_call_eq (rlog : ℚ → ℚ) (st : UnbinnedState) (f : ℚ → ℚ) :
    (st.logf = false →
      unbinnedNLL_call rlog st (fun xs => xs.map f)
        = -2 * (st.ms.masked.map fun xi => rlog (addTiny (f xi))).sum) ∧
    (∀ xi : ℚ, 0 ≤ f xi → 0 < addTiny (f xi)) ∧
    (st.logf = true →
      ∀ model : List ℚ → List ℚ,
        unbinnedNLL_call rlog st model = -2 * (model st.ms.masked).sum) := by
  refine ⟨fun hl => ?_, fun xi hx => addTiny_pos _ hx, fun hl model => ?_⟩
  · simp only [unbinnedNLL_call, hl, sum_log_x, List.map_map]
    rfl
  · simp [unbinnedNLL_call, hl]

/-- Claim C2 witness: a concrete unbinned cost over the single sample `5`
with the identity standing in for `log`, a density vanishing at the sample,
and a log-mode evaluation. -/
theorem unbinnedNLL_call_witness :
    unbinnedNLL_call (fun x => x) ⟨MaskedState.init [5], false⟩
        (fun xs => xs.map fun _ => (0 : ℚ))
      = -2 * (([5] : List ℚ).map fun _ => addTiny 0).sum ∧
    0 < addTiny ((fun _ : ℚ => (0 : ℚ)) 5) ∧
    unbinnedNLL_call (fun x => x) ⟨MaskedState.init [5], true⟩
        (fun xs => xs.map fun x => x + 1)
      = -2 * (([5] : List ℚ).map fun x => x + 1).sum := by
  refine ⟨?_, ?_, ?_⟩
  · exact (unbinnedNLL_call_eq (fun x => x) ⟨MaskedState.init [5], false⟩
      (fun _ => 0)).1 rfl
  · exact (unbinnedNLL_call_eq (fun x => x) ⟨MaskedState.init [5], false⟩
      (fun _ => 0)).2.1 5 le_rfl
  · exact (unbinnedNLL_call_eq (fun x => x) ⟨MaskedState.init [5], true⟩
      (fun x => x)).2.2 rfl (fun xs => xs.map fun x => x + 1)

/-- Claim C7: for `LeastSquares` over the active points, `loss="linear"`
gives exactly `sum(((y - model)/yerror)^2)`, `loss="soft_l1"` gives
`sum(2*(sqrt(1+z^2)-1))`, and for any square root consistent at `1 + z^2`
the two losses differ by at most `z^4/4`, so they agree to first order as
`z → 0`. -/
theorem leastSquares_loss_eq (rsqrt : ℚ → ℚ) (st : LsqState)
    (model : List ℚ → List ℚ) :
    (st.loss = .linear →
      leastSquares_call rsqrt st model
        = (zip3With (fun y ye ym => ((y - ym) / ye) * ((y - ym) / ye))
            (st.ms.masked.map fun r => r.2.1)
            (st.ms.masked.map fun r => r.2.2)
            (model (st.ms.masked.map fun r => r.1))).sum) ∧
    (st.loss = .softL1 →
      leastSquares_call rsqrt st model
        = ((zip3With (fun y ye ym => ((y - ym) / ye) * ((y - ym) / ye))
            (st.ms.masked.map fun r => r.2.1)
            (st.ms.masked.map fun r => r.2.2)
            (model (st.ms.masked.map fun r => r.1))).map
              fun z => 2 * (rsqrt (1 + z) - 1)).sum) ∧
    (∀ z : ℚ, rsqrt (1 + z * z) * rsqrt (1 + z * z) = 1 + z * z →
      0 ≤ rsqrt (1 + z * z) →
      |2 * (rsqrt (1 + z * z) - 1) - z * z| ≤ (z * z) ^ 2 / 4) := by
  refine ⟨fun hl => ?_, fun hl => ?_, fun z h1 h2 => ?_⟩
  · simp only [leastSquares_call, hl, sum_z_squared]
    rfl
  · simp only [leastSquares_call, hl, sum_z_squared_soft_l1]
    rfl
  · set s := rsqrt (1 + z * z) with hs
    have hs1 : 1 ≤ s := by nlinarith [mul_self_nonneg z]
    have hkey : 2 * (s - 1) - z * z = -((s - 1) * (s - 1)) := by nlinarith
    rw [hkey, abs_neg, abs_of_nonneg (mul_self_nonneg _)]
    have hz : z * z = (s - 1) * (s + 1) := by nlinarith
    rw [hz]
    have h4 : (0 : ℚ) ≤ (s - 1) * (s - 1) * ((s + 1) * (s + 1) - 4) := by
      have := mul_self_nonneg (s - 1)
      nlinarith
    nlinarith [mul_self_nonneg (s - 1), mul_self_nonneg (s + 1)]

/-- Claim C7 witness: a concrete two-point least-squares state evaluated
with the linear and soft-l1 losses, and the first-order bound at
`z = 3/4` where the square root of `1 + z^2 = 25/16` is exactly `5/4`. -/
theorem leastSquares_loss_witness :
    leastSquares_call (fun _ => 5/4) ⟨MaskedState.init [(0, 1, 2), (1, 3, 2)], .linear⟩
        (fun xs => xs.map fun x => x)
      = (zip3With (fun y ye ym => ((y - ym) / ye) * ((y - ym) / ye))
          ([(0, 1, 2), (1, 3, 2)].map fun r : ℚ × ℚ × ℚ => r.2.1)
          ([(0, 1, 2), (1, 3, 2)].map fun r : ℚ × ℚ × ℚ => r.2.2)
          (([(0, 1, 2), (1, 3, 2)].map fun r : ℚ × ℚ × ℚ => r.1).map fun x => x)).sum ∧
    |2 * ((fun _ : ℚ => (5/4 : ℚ)) (1 + (3/4 : ℚ) * (3/4)) - 1) - (3/4 : ℚ) * (3/4)|
      ≤ ((3/4 : ℚ) * (3/4)) ^ 2 / 4 := by
  constructor
  · exact (leastSquares_loss_eq (fun _ => 5/4)
      ⟨MaskedState.init [(0, 1, 2), (1, 3, 2)], .linear⟩
      (fun xs => xs.map fun x => x)).1 rfl
  · exact (leastSquares_loss_eq (fun _ => 5/4)
      ⟨MaskedState.init [(0, 1, 2), (1, 3, 2)], .linear⟩
      (fun xs => xs.map fun x => x)).2.2 (3/4) (by norm_num) (by norm_num)

/-- Claim C8: construction and data assignment report an error exactly when
the input is invalid: a plain count array errs iff its length is not one
less than the edge array's, and is otherwise stored without coercion; a
weighted array errs iff its shape is incompatible with the edges or its
trailing dimension is not `2`; and the `loss` setter errs on a string iff
it is neither `"linear"` nor `"soft_l1"`. -/
theorem validation_errors :
    (∀ (xe n : List ℚ),
        prepare_data xe (.counts n) = .error "n and xe have incompatible shapes"
          ↔ n.length + 1 ≠ xe.length) ∧
    (∀ (xe n : List ℚ), n.length + 1 = xe.length →
        prepare_data xe (.counts n) = .ok (.u n)) ∧
    (∀ (xe : List ℚ) (a : Array2),
        (∃ e, prepare_data xe (.weighted a) = .error e)
          ↔ (a.rows.length + 1 ≠ xe.length ∨ a.width ≠ 2)) ∧
    (∀ s : String,
        (∃ e, setLoss (.str s) = .error e) ↔ (s ≠ "linear" ∧ s ≠ "soft_l1")) := by
  refine ⟨?_, ?_, ?_, ?_⟩
  · intro xe n
    by_cases h : n.length + 1 = xe.length <;> simp [prepare_data, h]
  · intro xe n h
    simp [prepare_data, h]
  · intro xe a
    by_cases h1 : a.rows.length + 1 = xe.length <;>
      by_cases h2 : a.width = 2 <;> simp [prepare_data, h1, h2]
  · intro s
    by_cases h1 : s = "linear" <;> by_cases h2 : s = "soft_l1" <;>
      simp [setLoss, h1, h2]

/-- Claim C8 witness: two bins with three edges are accepted and stored as
given; the loss setter accepts a concrete string check. -/
theorem validation_errors_witness :
    prepare_data [0, 1, 2] (.counts [3, 4]) = .ok (.u [3, 4]) ∧
    (prepare_data [0, 1] (.counts [3, 4])
        = .error "n and xe have incompatible shapes") := by
  constructor
  · exact validation_errors.2.1 [0, 1, 2] [3, 4] (by decide)
  · exact (validation_errors.1 [0, 1] [3, 4]).mpr (by decide)

/-- Claim C10: for a binned cost constructed from a weighted `(N, 2)` array,
the public `data` property returns exactly the first two stored columns,
i.e. the original (weight-sum, weight-squared-sum) rows; the derived
effective-count and scale columns are not exposed, so construction followed
by reading `data` is a round trip. -/
theorem weighted_data_roundtrip (xe : List ℚ) (a : Array2) (d : BData)
    (h : prepare_data xe (.weighted a) = .ok d) :
    BData.dataGetter d = a.rows := by
  by_cases h1 : a.rows.length + 1 = xe.length
  · by_cases h2 : a.width = 2
    · simp [prepare_data, h1, h2] at h
      subst h
      simp only [BData.dataGetter, List.map_map]
      have hrow : ∀ r ∈ a.rows,
          ((fun r => [r.1, r.2.1]) ∘ bzRow) r = r := by
        intro r hr
        have hlen : r.length = 2 := by rw [a.rect r hr, h2]
        simpa [bzRow] using headD_drop_eq_of_length_two r hlen
      calc a.rows.map ((fun r => [r.1, r.2.1]) ∘ bzRow)
          = a.rows.map id := List.map_congr_left hrow
        _ = a.rows := List.map_id a.rows
    · simp [prepare_data, h1, h2] at h
  · simp [prepare_data, h1] at h

/-- Claim C10 witness: the weighted array `[[10, 4], [20, 9]]` is prepared
and read back unchanged through the `data` property. -/
theorem weighted_data_roundtrip_witness :
    BData.dataGetter (.w [(10, 4, 25, 5/2), (20, 9, 400/9, 20/9)])
      = [[10, 4], [20, 9]] :=
  weighted_data_roundtrip [0, 1, 2] ⟨[[10, 4], [20, 9]], 2, by decide⟩
    (.w [(10, 4, 25, 5/2), (20, 9, 400/9, 20/9)]) (by norm_num [prepare_data, bzRow, addTiny, tiny])

/-- Claim C9: for weighted bin contents, the stored Bohm-Zech scale is
`weight-sum / weight-squared-sum` (for `n = [[10, 4], [20, 9]]` the scales
are `5/2` and `20/9` and the effective counts `25` and `400/9`), and during
a call the expected counts `mu` are multiplied by the per-bin scale column
while the effective-count column replaces the raw weight sum. -/
theorem bohm_zech_scaling :
    (∀ v var : ℚ, var ≠ 0 →
        bzRow [v, var] = (v, var, v * (v / var), v / var)) ∧
    prepare_data [0, 1, 2] (.weighted ⟨[[10, 4], [20, 9]], 2, by decide⟩)
        = .ok (.w [(10, 4, 25, 5/2), (20, 9, 400/9, 20/9)]) ∧
    (∀ (rlog : ℚ → ℚ) (xe : List ℚ) (rows : List BZRow) (cdf : List ℚ),
        binnedNLL_call rlog (BinnedState.init xe (.w rows)) cdf
          = 2 * sum_log_poisson_part rlog (rows.map fun r => r.2.2.1)
              (List.zipWith
                (fun p r => ((rows.map fun r' => r'.1).sum * p) * r.2.2.2)
                (diffL cdf) rows)) ∧
    (∀ (rlog : ℚ → ℚ) (xe : List ℚ) (rows : List BZRow) (scdf : List ℚ),
        extendedBinnedNLL_call rlog (BinnedState.init xe (.w rows)) scdf
          = 2 * sum_log_poisson rlog (rows.map fun r => r.2.2.1)
              (List.zipWith (fun m r => m * r.2.2.2) (diffL scdf) rows)) := by
  refine ⟨?_, ?_, ?_, ?_⟩
  · intro v var hvar
    simp [bzRow, addTiny_of_ne var hvar]
  · norm_num [prepare_data, bzRow, addTiny, tiny]
  · intro rlog xe rows cdf
    simp [binnedNLL_call, BinnedState.init, maskB, applyMask, List.zipWith_map_left]
  · intro rlog xe rows scdf
    simp [extendedBinnedNLL_call, BinnedState.init, maskB, applyMask]

/-- Claim C9 witness: the scale of the bin `(10, 4)` is `10/4 = 5/2`, and
the weighted call on the spec's two-bin scenario uses the stored columns. -/
theorem bohm_zech_scaling_witness :
    bzRow [10, 4] = (10, 4, 10 * (10 / 4), 10 / 4) ∧
    binnedNLL_call (fun x => x)
        (BinnedState.init [0, 1, 2] (.w [(10, 4, 25, 5/2), (20, 9, 400/9, 20/9)]))
        [0, 1/2, 1]
      = 2 * sum_log_poisson_part (fun x => x)
          ([(10, 4, 25, 5/2), (20, 9, 400/9, 20/9)].map fun r : BZRow => r.2.2.1)
          (List.zipWith
            (fun (p : ℚ) (r : BZRow) =>
              ((([(10, 4, 25, 5/2), (20, 9, 400/9, 20/9)] : List BZRow).map
                  fun r' => r'.1).sum * p) * r.2.2.2)
            (diffL [0, 1/2, 1]) [(10, 4, 25, 5/2), (20, 9, 400/9, 20/9)]) := by
  constructor
  · exact bohm_zech_scaling.1 10 4 (by norm_num)
  · exact bohm_zech_scaling.2.2.1 (fun x => x) [0, 1, 2]
      [(10, 4, 25, 5/2), (20, 9, 400/9, 20/9)] [0, 1/2, 1]

/-- Claim C1: for every `BinnedNLL` call on unweighted counts, the expected
bin probabilities are the differences of the model CDF at the edges; with a
non-`None` mask the remaining probabilities are renormalised to sum to one
before `mu = total_observed * prob` is formed; the returned cost is exactly
`2 * sum(n*(log(n + tiny) - log(mu + tiny)))` over the active bins, which
under nonvanishing counts and expectations is the spec formula
`2 * sum(n*(log(n) - log(mu)))` with the `n*log(n)` term retained. -/
theorem binnedNLL_call_spec (rlog : ℚ → ℚ) (st : BinnedState) (n cdf : List ℚ)
    (hwf : st.wf) (hd : st.data = .u n) :
    (st.mask ≠ .none → (applyMask st.mask (diffL cdf)).sum ≠ 0 →
        (binnedNLL_spec_prob st.mask cdf).sum = 1) ∧
    binnedNLL_call rlog st cdf
      = 2 * (List.zipWith (fun a b => a * (rlog (addTiny a) - rlog (addTiny b)))
          (applyMask st.mask n)
          ((binnedNLL_spec_prob st.mask cdf).map
            fun p => (applyMask st.mask n).sum * p)).sum ∧
    ((∀ a ∈ applyMask st.mask n, a ≠ 0) →
      (∀ b ∈ (binnedNLL_spec_prob st.mask cdf).map
          (fun p => (applyMask st.mask n).sum * p), b ≠ 0) →
      binnedNLL_call rlog st cdf = binnedNLL_spec rlog st.mask n cdf) := by
  obtain ⟨xe, data, mask, masked⟩ := st
  dsimp only [BinnedState.wf] at hwf
  dsimp only at hd
  subst hd
  subst hwf
  have hcall : binnedNLL_call rlog ⟨xe, .u n, mask, maskB mask (.u n)⟩ cdf
      = 2 * (List.zipWith (fun a b => a * (rlog (addTiny a) - rlog (addTiny b)))
          (applyMask mask n)
          ((binnedNLL_spec_prob mask cdf).map
            fun p => (applyMask mask n).sum * p)).sum := by
    have hlp : log_poisson_part rlog
        = fun a b => a * (rlog (addTiny a) - rlog (addTiny b)) := rfl
    cases mask <;>
      simp [binnedNLL_call, binnedNLL_spec_prob, sum_log_poisson_part,
        hlp, maskB, applyMask]
  refine ⟨fun hm hs => ?_, hcall, fun ha hb => ?_⟩
  · simp only [binnedNLL_spec_prob, if_neg hm]
    rw [sum_map_div]
    exact div_self hs
  · rw [hcall]
    simp only [binnedNLL_spec]
    congr 1
    refine congrArg List.sum (zipWith_congr_mem _ _ _ _ ?_)
    intro a b ha' hb'
    rw [addTiny_of_ne a (ha a ha'), addTiny_of_ne b (hb b hb')]

/-- Claim C1 witness: three bins `[1, 2, 3]` with edges `[0, 1, 2, 3]`, a
boolean mask keeping the first two bins, and a CDF with values
`[0, 1/6, 1/2, 1]` at the edges: the renormalised probabilities sum to one
and the call equals the spec formula. -/
theorem binnedNLL_call_spec_witness :
    (binnedNLL_spec_prob (.bool [true, true, false]) [0, 1/6, 1/2, 1]).sum = 1 ∧
    binnedNLL_call (fun x => x)
        ((BinnedState.init [0, 1, 2, 3] (.u [1, 2, 3])).setMask
          (.bool [true, true, false]))
        [0, 1/6, 1/2, 1]
      = binnedNLL_spec (fun x => x) (.bool [true, true, false]) [1, 2, 3]
          [0, 1/6, 1/2, 1] := by
  have h := binnedNLL_call_spec (fun x => x)
      ((BinnedState.init [0, 1, 2, 3] (.u [1, 2, 3])).setMask
        (.bool [true, true, false]))
      [1, 2, 3] [0, 1/6, 1/2, 1] rfl rfl
  refine ⟨h.1 (by simp [BinnedState.setMask]) ?hs, h.2.2 ?ha ?hb⟩
  case hs =>
    show (([1/6 - 0, 1/2 - 1/6] : List ℚ)).sum ≠ 0
    norm_num
  case ha =>
    show ∀ a ∈ ([1, 2] : List ℚ), a ≠ 0
    intro a ha'
    simp only [List.mem_cons, List.not_mem_nil, or_false] at ha'
    rcases ha' with rfl | rfl <;> norm_num
  case hb =>
    show ∀ b ∈ (binnedNLL_spec_prob (.bool [true, true, false])
        [0, 1/6, 1/2, 1]).map (fun p => (([1, 2] : List ℚ)).sum * p), b ≠ 0
    have hne : (Mask.bool [true, true, false]) ≠ Mask.none := by simp
    have eprob : binnedNLL_spec_prob (.bool [true, true, false])
        [0, 1/6, 1/2, 1] = [1/3, 2/3] := by
      unfold binnedNLL_spec_prob
      rw [if_neg hne]
      norm_num [applyMask, diffL, List.filterMap_cons]
    rw [eprob]
    intro b hb'
    simp only [List.map_cons, List.map_nil, List.mem_cons, List.not_mem_nil,
      or_false] at hb'
    rcases hb' with rfl | rfl <;> norm_num [List.sum_cons, List.sum_nil]

/-- Claim C6: for every `ExtendedBinnedNLL` call on unweighted counts, the
expected counts are `mu = diff(scaled_cdf)` with masked bins selected from
`mu` and no renormalisation applied (unlike `BinnedNLL`), and the returned
cost is exactly `2 * sum(mu - n + n*(log(n + tiny) - log(mu + tiny)))` over
the active bins, which under nonvanishing counts and expectations is the
spec formula `2 * sum(mu - n + n*(log(n) - log(mu)))`. -/
theorem extendedBinnedNLL_call_spec (rlog : ℚ → ℚ) (st : BinnedState)
    (n scdf : List ℚ) (hwf : st.wf) (hd : st.data = .u n) :
    extendedBinnedNLL_call rlog st scdf
      = 2 * (List.zipWith
          (fun a b => b - a + a * (rlog (addTiny a) - rlog (addTiny b)))
          (applyMask st.mask n) (applyMask st.mask (diffL scdf))).sum ∧
    ((∀ a ∈ applyMask st.mask n, a ≠ 0) →
      (∀ b ∈ applyMask st.mask (diffL scdf), b ≠ 0) →
      extendedBinnedNLL_call rlog st scdf
        = extendedBinnedNLL_spec rlog st.mask n scdf) := by
  obtain ⟨xe, data, mask, masked⟩ := st
  dsimp only [BinnedState.wf] at hwf
  dsimp only at hd
  subst hd
  subst hwf
  have hcall : extendedBinnedNLL_call rlog ⟨xe, .u n, mask, maskB mask (.u n)⟩ scdf
      = 2 * (List.zipWith
          (fun a b => b - a + a * (rlog (addTiny a) - rlog (addTiny b)))
          (applyMask mask n) (applyMask mask (diffL scdf))).sum := by
    simp [extendedBinnedNLL_call, sum_log_poisson, log_poisson_part, maskB]
  refine ⟨hcall, fun ha hb => ?_⟩
  rw [hcall]
  simp only [extendedBinnedNLL_spec]
  congr 1
  refine congrArg List.sum (zipWith_congr_mem _ _ _ _ ?_)
  intro a b ha' hb'
  rw [addTiny_of_ne a (ha a ha'), addTiny_of_ne b (hb b hb')]

/-- Claim C6 witness: two bins `[3, 4]` with edges `[0, 1, 2]`, a boolean
mask keeping the first bin, and a scaled CDF with values `[0, 1/3, 1]`: the
call equals the spec formula with `mu` selected but not rescaled. -/
theorem extendedBinnedNLL_call_spec_witness :
    extendedBinnedNLL_call (fun x => x)
        ((BinnedState.init [0, 1, 2] (.u [3, 4])).setMask (.bool [true, false]))
        [0, 1/3, 1]
      = extendedBinnedNLL_spec (fun x => x) (.bool [true, false]) [3, 4]
          [0, 1/3, 1] := by
  have h := extendedBinnedNLL_call_spec (fun x => x)
      ((BinnedState.init [0, 1, 2] (.u [3, 4])).setMask (.bool [true, false]))
      [3, 4] [0, 1/3, 1] rfl rfl
  refine h.2 ?ha ?hb
  case ha =>
    show ∀ a ∈ ([3] : List ℚ), a ≠ 0
    intro a ha'
    simp only [List.mem_cons, List.not_mem_nil, or_false] at ha'
    subst ha'
    norm_num
  case hb =>
    show ∀ b ∈ ([1/3 - 0] : List ℚ), b ≠ 0
    intro b hb'
    simp only [List.mem_cons, List.not_mem_nil, or_false] at hb'
    subst hb'
    norm_num

end Iminuit
